import Mathlib

/-!
Verification of the RAG document-QA portal core against its specification.

The Python source is shallowly embedded:
* text is `List Char`; Python's `str.strip()` becomes `pyStrip`;
* `split_into_chunks` (chatbot/utils: rag_pipeline.py / chunking) is a
  fuel-indexed loop (`splitLoop`); the fuel counts iterations of the
  Python `while start < n` loop, and `none` means the fuel ran out with
  the loop still running;
* floating-point score vectors are modelled as `List ℚ`;
* `np.argsort` is modelled as a stable ascending index sort.  NumPy's
  default quicksort is unstable in general; it sorts (sub)arrays of at
  most 16 elements by stable insertion sort, so the model's tie order is
  that of `np.argsort` only for score vectors of at most 16 elements, and
  the tie-order theorem for C3 is restricted to that regime (everything
  else proved about the ranking is independent of tie order);
  `np.argsort(final_scores)[::-1][:top_k]` becomes reverse-then-take;
* the Django view's confidence gate (`views.py`, `document_detail`, qa mode)
  becomes the pure function `qaBranch`; the OpenAI boundary
  (`llm_client.py`) becomes `Except`-valued functions where `Except.error`
  models a propagated Python exception.
-/

namespace RagPortal

/-- Characters Python's `str.strip()` removes (ASCII whitespace). -/
def isSpace (c : Char) : Bool :=
  c == ' ' || c == '\t' || c == '\n' || c == '\r' || c == '\x0b' || c == '\x0c'

/-- Python `s.strip()`: drop whitespace from both ends. -/
def pyStrip (l : List Char) : List Char :=
  ((l.dropWhile isSpace).reverse.dropWhile isSpace).reverse

/-- Python slice `t[a:b]` (for `a ≤ b`). -/
def slice (t : List Char) (a b : ℕ) : List Char :=
  (t.drop a).take (b - a)

/-- The `while start < n` loop of `split_into_chunks` (rag_pipeline.py,
lines 47-57).  Each fuel unit is one loop iteration; `none` means the fuel
was exhausted while the loop was still running.  `max(0, end - overlap)`
is truncated ℕ subtraction. -/
def splitLoop (t : List Char) (maxc ov : ℕ) : ℕ → ℕ → Option (List (List Char))
  | 0, start => if start < t.length then none else some []
  | fuel + 1, start =>
    if start < t.length then
      let e := min (start + maxc) t.length
      let chunk := pyStrip (slice t start e)
      let here := if chunk.isEmpty then [] else [chunk]
      if e = t.length then some here
      else (splitLoop t maxc ov fuel (e - ov)).map (here ++ ·)
    else some []

/-- `split_into_chunks(text, max_chars, overlap)` from rag_pipeline.py.
The trimmed length is always enough fuel when `overlap < max_chars`
(proved below), so for valid configurations this is total. -/
def split_into_chunks (text : List Char) (maxc ov : ℕ) : Option (List (List Char)) :=
  let t := pyStrip text
  if t.isEmpty then some [] else splitLoop t maxc ov t.length 0

/-- Last `k` characters of a list. -/
def lastN (k : ℕ) (l : List α) : List α := l.drop (l.length - k)

/-- Chunk `b` starts with exactly the last `ov` characters of chunk `a`. -/
def overlapOK (ov : ℕ) (a b : List Char) : Prop := b.take ov = lastN ov a

/-- Concatenate chunks after removing the `ov`-character overlapping prefix
from every chunk but the first. -/
def reconstruct (ov : ℕ) : List (List Char) → List Char
  | [] => []
  | c :: rest => c ++ (rest.map (List.drop ov)).flatten

/-! Basic facts about `pyStrip`. -/

theorem dropWhile_eq_self_of_not {p : Char → Bool} {l : List Char}
    (h : ∀ c ∈ l, p c = false) : l.dropWhile p = l := by
  cases l with
  | nil => rfl
  | cons c t =>
    rw [List.dropWhile_cons, h c (List.mem_cons_self c t)]
    simp

theorem pyStrip_eq_self {l : List Char} (h : ∀ c ∈ l, isSpace c = false) :
    pyStrip l = l := by
  unfold pyStrip
  rw [dropWhile_eq_self_of_not h,
      dropWhile_eq_self_of_not (fun c hc => h c (List.mem_reverse.mp hc)),
      List.reverse_reverse]

theorem pyStrip_length_le (l : List Char) : (pyStrip l).length ≤ l.length := by
  unfold pyStrip
  calc ((l.dropWhile isSpace).reverse.dropWhile isSpace).reverse.length
      = ((l.dropWhile isSpace).reverse.dropWhile isSpace).length := by
        rw [List.length_reverse]
    _ ≤ (l.dropWhile isSpace).reverse.length := (List.dropWhile_sublist _).length_le
    _ = (l.dropWhile isSpace).length := by rw [List.length_reverse]
    _ ≤ l.length := (List.dropWhile_sublist _).length_le

/-! C1: the missing `overlap ≥ max_chars` guard.  When the (trimmed) text is
longer than `max_chars` and `overlap ≥ max_chars`, the next start position
is `max(0, max_chars - overlap) = 0`, so the loop repeats the state
`start = 0` forever: no amount of fuel makes it finish. -/

theorem splitLoop_stuck (t : List Char) (maxc ov : ℕ)
    (hov : maxc ≤ ov) (hn : maxc < t.length) :
    ∀ fuel, splitLoop t maxc ov fuel 0 = none := by
  intro fuel
  induction fuel with
  | zero =>
    have h0 : 0 < t.length := Nat.lt_of_le_of_lt (Nat.zero_le _) hn
    simp [splitLoop, h0]
  | succ f ih =>
    have h0 : 0 < t.length := Nat.lt_of_le_of_lt (Nat.zero_le _) hn
    have hmin : min (0 + maxc) t.length = maxc := by
      rw [Nat.zero_add]; exact Nat.min_eq_left (Nat.le_of_lt hn)
    have hne : ¬ (min (0 + maxc) t.length = t.length) := by
      rw [hmin]; exact Nat.ne_of_lt hn
    have hsub : min (0 + maxc) t.length - ov = 0 := by
      rw [hmin]; exact Nat.sub_eq_zero_of_le hov
    simp only [splitLoop, if_pos h0, if_neg hne, hsub, ih, Option.map_none']

/-- Claim C1: the specification demands that `overlap ≥ max_chars` be
detected and rejected at call time.  The code has no such guard: on the
601-character text `'a' * 601` with `max_chars = 600, overlap = 600` the
loop never advances, so no fuel bound terminates it and the embedded
function (whose fuel is the text length) fails. -/
theorem C1_no_guard_infinite_loop :
    (∀ fuel, splitLoop (List.replicate 601 'a') 600 600 fuel 0 = none) ∧
    split_into_chunks (List.replicate 601 'a') 600 600 = none := by
  have hws : ∀ c ∈ List.replicate 601 'a', isSpace c = false := by
    intro c hc
    rw [List.eq_of_mem_replicate hc]
    decide
  have hstrip : pyStrip (List.replicate 601 'a') = List.replicate 601 'a' :=
    pyStrip_eq_self hws
  have hlen : (List.replicate 601 'a').length = 601 := List.length_replicate _ _
  have hlt : (600 : ℕ) < (List.replicate 601 'a').length := by rw [hlen]; decide
  refine ⟨fun fuel => splitLoop_stuck _ 600 600 (Nat.le_refl _) hlt fuel, ?_⟩
  unfold split_into_chunks
  rw [hstrip]
  have hne : ¬ ((List.replicate 601 'a').isEmpty = true) := by
    rw [List.isEmpty_iff_length_eq_zero, hlen]; decide
  rw [if_neg hne]
  rw [hlen]
  exact splitLoop_stuck _ 600 600 (Nat.le_refl _) hlt 601

/-! C7: termination within `ceil(len(text) / (max_chars - overlap))`
iterations when `overlap < max_chars`. -/

theorem splitLoop_isSome (t : List Char) (maxc ov : ℕ) (hov : ov < maxc) :
    ∀ fuel start,
      (t.length - start + (maxc - ov) - 1) / (maxc - ov) ≤ fuel →
      (splitLoop t maxc ov fuel start).isSome = true := by
  have hd : 0 < maxc - ov := Nat.sub_pos_of_lt hov
  intro fuel
  induction fuel with
  | zero =>
    intro start hb
    have h0 : t.length - start + (maxc - ov) - 1 < maxc - ov := by
      have := (Nat.div_eq_zero_iff hd).mp (Nat.le_zero.mp hb)
      exact this
    have hns : ¬ start < t.length := by omega
    simp [splitLoop, hns]
  | succ f ih =>
    intro start hb
    by_cases hs : start < t.length
    · simp only [splitLoop, if_pos hs]
      by_cases he : min (start + maxc) t.length = t.length
      · rw [if_pos he]
        rfl
      · rw [if_neg he]
        have hlt : start + maxc < t.length := by
          rcases Nat.lt_or_ge (start + maxc) t.length with h | h
          · exact h
          · exact absurd (Nat.min_eq_right h) he
        have hemin : min (start + maxc) t.length = start + maxc :=
          Nat.min_eq_left (Nat.le_of_lt hlt)
        rw [hemin]
        rw [Option.isSome_map']
        apply ih
        -- arithmetic: one iteration strictly decreases the ceiling bound
        have hm : maxc < t.length - start := by omega
        have hstep : t.length - (start + maxc - ov) =
            t.length - start - (maxc - ov) := by omega
        rw [hstep]
        have h1 : t.length - start - (maxc - ov) + (maxc - ov) - 1 =
            t.length - start - 1 := by omega
        have h2 : t.length - start + (maxc - ov) - 1 =
            (t.length - start - 1) + (maxc - ov) := by omega
        rw [h1]
        rw [h2, Nat.add_div_right _ hd] at hb
        omega
    · simp [splitLoop, hs]

theorem ceil_div_le_self (n d : ℕ) (hd : 0 < d) : (n + d - 1) / d ≤ n := by
  apply Nat.lt_succ_iff.mp
  apply (Nat.div_lt_iff_lt_mul hd).mpr
  have h1 : n ≤ n * d := Nat.le_mul_of_pos_right n hd
  have h2 : Nat.succ n * d = n * d + d := Nat.succ_mul n d
  omega

/-- Claim C7: for every `overlap < max_chars` the chunker terminates, and
`ceil(len(text) / (max_chars - overlap))` fuel units (loop iterations)
already suffice, starting from `start = 0`. -/
theorem C7_chunker_terminates (text : List Char) (maxc ov : ℕ) (hov : ov < maxc) :
    (split_into_chunks text maxc ov).isSome = true ∧
    (splitLoop (pyStrip text) maxc ov
      ((text.length + (maxc - ov) - 1) / (maxc - ov)) 0).isSome = true := by
  have hd : 0 < maxc - ov := Nat.sub_pos_of_lt hov
  constructor
  · unfold split_into_chunks
    by_cases he : (pyStrip text).isEmpty
    · rw [if_pos (by simp [he])]
      rfl
    · rw [if_neg (by simp_all)]
      apply splitLoop_isSome _ _ _ hov
      rw [Nat.sub_zero]
      exact ceil_div_le_self _ _ hd
  · apply splitLoop_isSome _ _ _ hov
    rw [Nat.sub_zero]
    apply Nat.div_le_div_right
    have := pyStrip_length_le text
    omega

/-- Witness for C7 at `text = "abc"`, `max_chars = 2`, `overlap = 1`. -/
theorem C7_witness :
    (split_into_chunks ['a', 'b', 'c'] 2 1).isSome = true ∧
    (splitLoop (pyStrip ['a', 'b', 'c']) 2 1
      ((['a', 'b', 'c'].length + (2 - 1) - 1) / (2 - 1)) 0).isSome = true :=
  C7_chunker_terminates ['a', 'b', 'c'] 2 1 (by decide)

/-! C4 and C5: the loop invariant.  On whitespace-free text every emitted
chunk is the raw window `t[start:end]`, consecutive chunks share exactly
`overlap` characters, and dropping each overlapping prefix reconstructs
the remaining text. -/

theorem length_slice (t : List Char) (a b : ℕ) (hb : b ≤ t.length) :
    (slice t a b).length = b - a := by
  unfold slice
  rw [List.length_take, List.length_drop]
  omega

theorem slice_ws_free {t : List Char} (h : ∀ c ∈ t, isSpace c = false)
    (a b : ℕ) : ∀ c ∈ slice t a b, isSpace c = false :=
  fun c hc => h c (List.mem_of_mem_drop (List.mem_of_mem_take hc))

theorem splitLoop_inv (t : List Char) (maxc ov : ℕ)
    (hws : ∀ c ∈ t, isSpace c = false) (hov : ov < maxc) :
    ∀ fuel start cs, start < t.length →
      splitLoop t maxc ov fuel start = some cs →
      cs.head? = some (slice t start (min (start + maxc) t.length)) ∧
      reconstruct ov cs = t.drop start ∧
      List.Chain' (overlapOK ov) cs := by
  intro fuel
  induction fuel with
  | zero =>
    intro start cs hs h
    rw [splitLoop, if_pos hs] at h
    exact absurd h (by simp)
  | succ f ih =>
    intro start cs hs h
    simp only [splitLoop, if_pos hs] at h
    have hmaxc : 0 < maxc := Nat.lt_of_le_of_lt (Nat.zero_le _) hov
    have hse : start < min (start + maxc) t.length := lt_min (by omega) hs
    have hen : min (start + maxc) t.length ≤ t.length := min_le_right _ _
    have hchunk : pyStrip (slice t start (min (start + maxc) t.length)) =
        slice t start (min (start + maxc) t.length) :=
      pyStrip_eq_self (slice_ws_free hws _ _)
    have hlen₀ : (slice t start (min (start + maxc) t.length)).length =
        min (start + maxc) t.length - start := length_slice t _ _ hen
    have hpos : 0 < (slice t start (min (start + maxc) t.length)).length := by
      rw [hlen₀]
      omega
    have hne : (slice t start (min (start + maxc) t.length)).isEmpty = false := by
      rw [List.isEmpty_eq_false]
      exact List.length_pos.mp hpos
    rw [hchunk, hne] at h
    simp only [Bool.false_eq_true, if_false] at h
    by_cases hend : min (start + maxc) t.length = t.length
    · rw [if_pos hend] at h
      have hcs : cs = [slice t start (min (start + maxc) t.length)] :=
        (Option.some_injective _ h).symm
      subst hcs
      refine ⟨rfl, ?_, List.chain'_singleton _⟩
      simp only [reconstruct, List.map_nil, List.flatten_nil, List.append_nil]
      unfold slice
      rw [hend]
      apply List.take_of_length_le
      rw [List.length_drop]
    · rw [if_neg hend] at h
      have hlt : start + maxc < t.length := by
        rcases Nat.lt_or_ge (start + maxc) t.length with hx | hx
        · exact hx
        · exact absurd (Nat.min_eq_right hx) hend
      have hemin : min (start + maxc) t.length = start + maxc :=
        Nat.min_eq_left (Nat.le_of_lt hlt)
      rw [hemin] at h hlen₀ ⊢
      rw [Option.map_eq_some'] at h
      obtain ⟨rest, hrest, hcs⟩ := h
      have hs' : start + maxc - ov < t.length := by omega
      obtain ⟨hhead, hrec, hchain⟩ := ih (start + maxc - ov) rest hs' hrest
      obtain ⟨c₁, rest', rfl⟩ : ∃ c₁ rest', rest = c₁ :: rest' := by
        cases rest with
        | nil => exact absurd hhead (by simp)
        | cons a l => exact ⟨a, l, rfl⟩
      have hc₁ : c₁ = slice t (start + maxc - ov)
          (min (start + maxc - ov + maxc) t.length) := by
        simpa using hhead
      have hlenc₁ : ov < c₁.length := by
        rw [hc₁, length_slice t _ _ (min_le_right _ _)]
        rcases Nat.le_total (start + maxc - ov + maxc) t.length with hx | hx
        · rw [Nat.min_eq_left hx]; omega
        · rw [Nat.min_eq_right hx]; omega
      subst hcs
      refine ⟨rfl, ?_, ?_⟩
      · -- reconstruction
        simp only [List.singleton_append]
        simp only [reconstruct, List.map_cons, List.flatten_cons] at hrec ⊢
        have hsplit₁ : c₁.drop ov ++ (rest'.map (List.drop ov)).flatten =
            (c₁ ++ (rest'.map (List.drop ov)).flatten).drop ov :=
          (List.drop_append_of_le_length (Nat.le_of_lt hlenc₁)).symm
        rw [hsplit₁, hrec, List.drop_drop]
        have hidx : start + maxc - ov + ov = start + maxc := by omega
        rw [hidx]
        have hdrop : t.drop (start + maxc) =
            (t.drop start).drop (start + maxc - start) := by
          rw [List.drop_drop]
          congr 1
          omega
        rw [hdrop]
        unfold slice
        exact List.take_append_drop _ _
      · -- overlap chain
        simp only [List.singleton_append]
        rw [List.chain'_cons]
        refine ⟨?_, hchain⟩
        unfold overlapOK
        have h₁ : c₁.take ov = (t.drop (start + maxc - ov)).take ov := by
          rw [hc₁]
          unfold slice
          rw [List.take_take]
          congr 1
          rcases Nat.le_total (start + maxc - ov + maxc) t.length with hx | hx
          · rw [Nat.min_eq_left hx]; omega
          · rw [Nat.min_eq_right hx]; omega
        have h₂ : lastN ov (slice t start (start + maxc)) =
            (t.drop (start + maxc - ov)).take ov := by
          unfold lastN slice
          have hlen' : (List.take (start + maxc - start)
              (List.drop start t)).length = maxc := by
            rw [List.length_take, List.length_drop]
            omega
          rw [hlen', List.drop_take, List.drop_drop]
          congr 1
          · omega
          · congr 1
            omega
        rw [h₁, h₂]

instance (ov : ℕ) (a b : List Char) : Decidable (overlapOK ov a b) :=
  inferInstanceAs (Decidable (b.take ov = lastN ov a))

/-- Text with whitespace at a window boundary: `"ab  cdef"`. -/
def wsText : List Char := ['a', 'b', ' ', ' ', 'c', 'd', 'e', 'f']

/-- `np.min` over a score vector (0 on the empty vector, unused there). -/
def listMin : List ℚ → ℚ
  | [] => 0
  | x :: t => t.foldl min x

/-- `np.max` over a score vector. -/
def listMax : List ℚ → ℚ
  | [] => 0
  | x :: t => t.foldl max x

theorem foldl_min_le_init : ∀ (l : List ℚ) (a : ℚ), l.foldl min a ≤ a := by
  intro l
  induction l with
  | nil => intro a; exact le_refl a
  | cons y t ih =>
    intro a
    exact le_trans (ih (min a y)) (min_le_left a y)

theorem foldl_min_le_mem : ∀ (l : List ℚ) (a x : ℚ), x ∈ l → l.foldl min a ≤ x := by
  intro l
  induction l with
  | nil => intro a x hx; exact absurd hx (List.not_mem_nil x)
  | cons y t ih =>
    intro a x hx
    rcases List.mem_cons.mp hx with h | h
    · subst h
      exact le_trans (foldl_min_le_init t (min a x)) (min_le_right a x)
    · exact ih (min a y) x h

theorem foldl_min_mem : ∀ (l : List ℚ) (a : ℚ), l.foldl min a ∈ a :: l := by
  intro l
  induction l with
  | nil => intro a; exact List.mem_singleton.mpr rfl
  | cons y t ih =>
    intro a
    rw [List.foldl_cons]
    have h := ih (min a y)
    rcases List.mem_cons.mp h with h | h
    · rw [h]
      rcases min_choice a y with hm | hm
      · rw [hm]; exact List.mem_cons_self _ _
      · rw [hm]; exact List.mem_cons_of_mem _ (List.mem_cons_self _ _)
    · exact List.mem_cons_of_mem _ (List.mem_cons_of_mem _ h)

theorem init_le_foldl_max : ∀ (l : List ℚ) (a : ℚ), a ≤ l.foldl max a := by
  intro l
  induction l with
  | nil => intro a; exact le_refl a
  | cons y t ih =>
    intro a
    exact le_trans (le_max_left a y) (ih (max a y))

theorem mem_le_foldl_max : ∀ (l : List ℚ) (a x : ℚ), x ∈ l → x ≤ l.foldl max a := by
  intro l
  induction l with
  | nil => intro a x hx; exact absurd hx (List.not_mem_nil x)
  | cons y t ih =>
    intro a x hx
    rcases List.mem_cons.mp hx with h | h
    · subst h
      exact le_trans (le_max_right a x) (init_le_foldl_max t (max a x))
    · exact ih (max a y) x h

theorem foldl_max_mem : ∀ (l : List ℚ) (a : ℚ), l.foldl max a ∈ a :: l := by
  intro l
  induction l with
  | nil => intro a; exact List.mem_singleton.mpr rfl
  | cons y t ih =>
    intro a
    rw [List.foldl_cons]
    have h := ih (max a y)
    rcases List.mem_cons.mp h with h | h
    · rw [h]
      rcases max_choice a y with hm | hm
      · rw [hm]; exact List.mem_cons_self _ _
      · rw [hm]; exact List.mem_cons_of_mem _ (List.mem_cons_self _ _)
    · exact List.mem_cons_of_mem _ (List.mem_cons_of_mem _ h)

theorem listMin_le_of_mem {s : List ℚ} {x : ℚ} (h : x ∈ s) : listMin s ≤ x := by
  cases s with
  | nil => exact absurd h (List.not_mem_nil x)
  | cons a t =>
    show List.foldl min a t ≤ x
    rcases List.mem_cons.mp h with hx | hx
    · rw [hx]; exact foldl_min_le_init t a
    · exact foldl_min_le_mem t a x hx

theorem le_listMax_of_mem {s : List ℚ} {x : ℚ} (h : x ∈ s) : x ≤ listMax s := by
  cases s with
  | nil => exact absurd h (List.not_mem_nil x)
  | cons a t =>
    show x ≤ List.foldl max a t
    rcases List.mem_cons.mp h with hx | hx
    · rw [hx]; exact init_le_foldl_max t a
    · exact mem_le_foldl_max t a x hx

theorem listMin_mem {s : List ℚ} (h : s ≠ []) : listMin s ∈ s := by
  cases s with
  | nil => exact absurd rfl h
  | cons a t => exact foldl_min_mem t a

theorem listMax_mem {s : List ℚ} (h : s ≠ []) : listMax s ∈ s := by
  cases s with
  | nil => exact absurd rfl h
  | cons a t => exact foldl_max_mem t a

/-- Min-max normalization of one score vector, with the `1e-9` degenerate
guard of rag_pipeline.py lines 116-121 / 133-137: if all scores are within
`1e-9` of each other the vector is replaced by all-ones. -/
def normalizeVec (s : List ℚ) : List ℚ :=
  if listMax s - listMin s < 1 / 1000000000 then s.map (fun _ => 1)
  else s.map (fun x => (x - listMin s) / (listMax s - listMin s))

theorem normalizeVec_bounds {s : List ℚ} : ∀ y ∈ normalizeVec s, 0 ≤ y ∧ y ≤ 1 := by
  intro y hy
  unfold normalizeVec at hy
  by_cases hdeg : listMax s - listMin s < 1 / 1000000000
  · rw [if_pos hdeg] at hy
    obtain ⟨x, _, rfl⟩ := List.mem_map.mp hy
    exact ⟨zero_le_one, le_refl 1⟩
  · rw [if_neg hdeg] at hy
    obtain ⟨x, hx, rfl⟩ := List.mem_map.mp hy
    have hd : 0 < listMax s - listMin s :=
      lt_of_lt_of_le (by norm_num) (not_lt.mp hdeg)
    have h1 : listMin s ≤ x := listMin_le_of_mem hx
    have h2 : x ≤ listMax s := le_listMax_of_mem hx
    constructor
    · apply div_nonneg <;> linarith
    · rw [div_le_one hd]; linarith

/-- Claim C6: degenerate vectors (max − min < 1e-9) normalize to all-ones;
non-degenerate vectors have a strictly positive denominator (no division by
zero), all normalized values in `[0,1]`, the minimum mapped to 0 and the
maximum mapped to 1. -/
theorem C6_normalization (s : List ℚ) (hne : s ≠ []) :
    (listMax s - listMin s < 1 / 1000000000 →
      normalizeVec s = List.replicate s.length 1) ∧
    (1 / 1000000000 ≤ listMax s - listMin s →
      0 < listMax s - listMin s ∧
      (∀ y ∈ normalizeVec s, 0 ≤ y ∧ y ≤ 1) ∧
      (∃ i, s.get? i = some (listMin s) ∧ (normalizeVec s).get? i = some 0) ∧
      (∃ i, s.get? i = some (listMax s) ∧ (normalizeVec s).get? i = some 1)) := by
  constructor
  · intro hdeg
    unfold normalizeVec
    rw [if_pos hdeg]
    exact List.map_const' s 1
  · intro hge
    have hd : 0 < listMax s - listMin s := lt_of_lt_of_le (by norm_num) hge
    have hdne : listMax s - listMin s ≠ 0 := ne_of_gt hd
    have hdeg : ¬ (listMax s - listMin s < 1 / 1000000000) := not_lt.mpr hge
    refine ⟨hd, normalizeVec_bounds, ?_, ?_⟩
    · obtain ⟨i, hi⟩ := List.mem_iff_get?.mp (listMin_mem hne)
      refine ⟨i, hi, ?_⟩
      unfold normalizeVec
      rw [if_neg hdeg, List.get?_map, hi]
      simp
    · obtain ⟨i, hi⟩ := List.mem_iff_get?.mp (listMax_mem hne)
      refine ⟨i, hi, ?_⟩
      unfold normalizeVec
      rw [if_neg hdeg, List.get?_map, hi]
      simp [div_self hdne]

/-- Witness for C6 at the non-degenerate vector `[0, 1]`: strictly positive
denominator (the first conjunct of the non-degenerate branch). -/
theorem C6_witness : 0 < listMax [(0 : ℚ), 1] - listMin [(0 : ℚ), 1] :=
  ((C6_normalization [(0 : ℚ), 1] (by simp)).2
    (by norm_num [listMax, listMin, List.foldl_cons, List.foldl_nil])).1

/-- Elementwise fusion `alpha * semantic_norm + (1 - alpha) * bm25_norm`
(rag_pipeline.py line 141). -/
def fusePoint (sem bm alpha : ℚ) : ℚ := alpha * sem + (1 - alpha) * bm

/-- The fused score vector: both raw vectors normalized, then combined
elementwise. -/
def fuseScores (bm25_scores semantic_scores : List ℚ) (alpha : ℚ) : List ℚ :=
  List.zipWith (fun sn bn => fusePoint sn bn alpha)
    (normalizeVec semantic_scores) (normalizeVec bm25_scores)

/-- Claim C8 (amended): for fixed normalized scores, increasing `alpha`
strictly increases the fused score when `semantic_norm > bm25_norm` and
strictly decreases it when `semantic_norm < bm25_norm` (when the two are
equal the fused score does not change, see the counterexample). -/
theorem C8_fusion_monotone (s b α₁ α₂ : ℚ) (h : α₁ < α₂) :
    (b < s → fusePoint s b α₁ < fusePoint s b α₂) ∧
    (s < b → fusePoint s b α₂ < fusePoint s b α₁) := by
  unfold fusePoint
  constructor <;> intro hsb <;> nlinarith

/-- Witness for C8: with `semantic_norm = 1 > 0 = bm25_norm`, raising
`alpha` from 0 to 1 strictly increases the fused score. -/
theorem C8_witness : fusePoint 1 0 0 < fusePoint 1 0 1 :=
  (C8_fusion_monotone 1 0 0 1 (by norm_num)).1 (by norm_num)

/-- Counterexample to C8 as stated: at `semantic_norm = bm25_norm = 1/2`
the "otherwise" case of the claim applies (semantic does not exceed BM25),
yet raising `alpha` from 0 to 1 leaves the fused score unchanged instead of
strictly decreasing it. -/
theorem C8_counterexample :
    (0 : ℚ) < 1 ∧ ¬ ((1 : ℚ) / 2 > (1 : ℚ) / 2) ∧
    fusePoint (1 / 2) (1 / 2) 0 = fusePoint (1 / 2) (1 / 2) 1 := by
  refine ⟨by norm_num, by norm_num, ?_⟩
  unfold fusePoint
  norm_num

/-- `final_scores[idx]` (in the source the index is always in range; out of
range we default to 0, which never occurs on the argsort output). -/
def getScore (s : List ℚ) (i : ℕ) : ℚ := (s.get? i).getD 0

/-- Stable insertion of index `x` into an index list ascending by score:
`x` goes before the first index of score ≥ its own. -/
def insertIdx (s : List ℚ) (x : ℕ) : List ℕ → List ℕ
  | [] => [x]
  | y :: t => if getScore s x ≤ getScore s y then x :: y :: t else y :: insertIdx s x t

def argsortGo (s : List ℚ) : List ℕ → List ℕ
  | [] => []
  | x :: t => insertIdx s x (argsortGo s t)

/-- `np.argsort(s)`: indices of `s` sorted ascending by score.  The model
sorts stably; NumPy's default quicksort agrees with it (including on tie
order) exactly when `s` has at most 16 elements, the regime its introsort
handles entirely by stable insertion sort.  On longer vectors NumPy's tie
order is unspecified, so only tie-order-independent consequences of this
definition transfer to the code there. -/
def argsort (s : List ℚ) : List ℕ := argsortGo s (List.range s.length)

/-- `hybrid_chunk_search` steps (C)-(D) (rag_pipeline.py lines 139-156):
fuse the normalized vectors, `np.argsort(final_scores)[::-1][:top_k]`, and
return `(rank, score, chunk_index)` triples with 1-based ranks.  The raw
BM25 and semantic score vectors are the collaborator outputs for one
document/query pair. -/
def hybrid_chunk_search (bm25_scores semantic_scores : List ℚ)
    (top_k : ℕ) (alpha : ℚ) : List (ℕ × ℚ × ℕ) :=
  let final := fuseScores bm25_scores semantic_scores alpha
  let sortedIdx := (argsort final).reverse.take top_k
  sortedIdx.enum.map (fun p => (p.1 + 1, getScore final p.2, p.2))

theorem mem_zipWith {α β γ : Type} {f : α → β → γ} :
    ∀ {l₁ : List α} {l₂ : List β} {c : γ}, c ∈ List.zipWith f l₁ l₂ →
      ∃ a ∈ l₁, ∃ b ∈ l₂, c = f a b := by
  intro l₁
  induction l₁ with
  | nil => intro l₂ c hc; simp at hc
  | cons a t ih =>
    intro l₂ c hc
    cases l₂ with
    | nil => simp at hc
    | cons b t₂ =>
      rw [List.zipWith_cons_cons] at hc
      rcases List.mem_cons.mp hc with h | h
      · exact ⟨a, List.mem_cons_self _ _, b, List.mem_cons_self _ _, h⟩
      · obtain ⟨x, hx, y, hy, hxy⟩ := ih h
        exact ⟨x, List.mem_cons_of_mem _ hx, y, List.mem_cons_of_mem _ hy, hxy⟩

theorem getScore_fuse_bounds (bm sem : List ℚ) (alpha : ℚ)
    (h0 : 0 ≤ alpha) (h1 : alpha ≤ 1) (i : ℕ) :
    0 ≤ getScore (fuseScores bm sem alpha) i ∧
    getScore (fuseScores bm sem alpha) i ≤ 1 := by
  unfold getScore
  cases hx : (fuseScores bm sem alpha).get? i with
  | none => exact ⟨le_refl 0, zero_le_one⟩
  | some v =>
    have hv : v ∈ fuseScores bm sem alpha := List.get?_mem hx
    unfold fuseScores at hv
    obtain ⟨a, ha, b, hb, rfl⟩ := mem_zipWith hv
    obtain ⟨ha0, ha1⟩ := normalizeVec_bounds a ha
    obtain ⟨hb0, hb1⟩ := normalizeVec_bounds b hb
    unfold fusePoint
    constructor <;> [skip; skip] <;> simp only [Option.getD_some] <;> nlinarith

/-- Claim C10: with `alpha ∈ [0,1]`, every fused score in the result of the
hybrid search lies exactly in `[0,1]`, because both normalized vectors do
in both the degenerate and non-degenerate branches. -/
theorem C10_scores_in_unit_interval (bm sem : List ℚ) (top_k : ℕ) (alpha : ℚ)
    (hbm : bm ≠ []) (hsem : sem ≠ [])
    (h0 : 0 ≤ alpha) (h1 : alpha ≤ 1) :
    ∀ r ∈ hybrid_chunk_search bm sem top_k alpha, 0 ≤ r.2.1 ∧ r.2.1 ≤ 1 := by
  intro r hr
  unfold hybrid_chunk_search at hr
  obtain ⟨p, _, rfl⟩ := List.mem_map.mp hr
  exact getScore_fuse_bounds bm sem alpha h0 h1 p.2

/-- Witness for C10: on `bm25 = [1,2]`, `semantic = [0,1]`, `alpha = 1/2`,
the triple `(1, 1, 1)` is in the result and its score 1 is in `[0,1]`. -/
theorem C10_witness :
    0 ≤ ((1, (1 : ℚ), 1) : ℕ × ℚ × ℕ).2.1 ∧
    ((1, (1 : ℚ), 1) : ℕ × ℚ × ℕ).2.1 ≤ 1 :=
  C10_scores_in_unit_interval [1, 2] [0, 1] 5 (1 / 2)
    (by simp) (by simp) (by norm_num) (by norm_num)
    (1, 1, 1)
    (by norm_num [hybrid_chunk_search, fuseScores, fusePoint, normalizeVec,
      listMin, listMax, argsort, argsortGo, insertIdx, getScore,
      List.range_succ, List.enum, List.enumFrom])

/-! C3: tie-breaking of the ranking.  In NumPy's insertion-sort regime
(vectors of at most 16 elements, where `np.argsort`'s default quicksort
never partitions and is therefore stable), ascending argsort followed by
`[::-1]` places the *higher* original index first among chunks with equal
fused scores — ties are broken by chunk index descending, not ascending as
the specification claims.  For longer vectors the quicksort partition
swaps reorder equal elements arbitrarily, so no tie order is a property of
the code there. -/

theorem insertIdx_perm (s : List ℚ) (x : ℕ) : ∀ l, List.Perm (insertIdx s x l) (x :: l) := by
  intro l
  induction l with
  | nil => exact List.Perm.refl _
  | cons y t ih =>
    simp only [insertIdx]
    by_cases h : getScore s x ≤ getScore s y
    · rw [if_pos h]
    · rw [if_neg h]
      exact (List.Perm.cons y ih).trans (List.Perm.swap x y t)

theorem argsortGo_perm (s : List ℚ) : ∀ l, List.Perm (argsortGo s l) l := by
  intro l
  induction l with
  | nil => exact List.Perm.refl _
  | cons x t ih =>
    show List.Perm (insertIdx s x (argsortGo s t)) (x :: t)
    exact (insertIdx_perm s x _).trans (List.Perm.cons x ih)

theorem sublist_insertIdx (s : List ℚ) (x : ℕ) : ∀ l, List.Sublist l (insertIdx s x l) := by
  intro l
  induction l with
  | nil => exact List.nil_sublist _
  | cons y t ih =>
    simp only [insertIdx]
    by_cases h : getScore s x ≤ getScore s y
    · rw [if_pos h]
      exact List.sublist_cons_self x (y :: t)
    · rw [if_neg h]
      exact List.Sublist.cons₂ y ih

theorem pair_sublist_insertIdx (s : List ℚ) (i j : ℕ)
    (hle : getScore s i ≤ getScore s j) :
    ∀ l, j ∈ l → List.Sublist [i, j] (insertIdx s i l) := by
  intro l
  induction l with
  | nil => intro hj; exact absurd hj (List.not_mem_nil j)
  | cons y t ih =>
    intro hj
    simp only [insertIdx]
    by_cases h : getScore s i ≤ getScore s y
    · rw [if_pos h]
      exact List.Sublist.cons₂ i (List.singleton_sublist.mpr hj)
    · rw [if_neg h]
      have hy : j ≠ y := by
        intro hcontra
        apply h
        calc getScore s i ≤ getScore s j := hle
          _ = getScore s y := by rw [hcontra]
      have hjt : j ∈ t := by
        rcases List.mem_cons.mp hj with h' | h'
        · exact absurd h' hy
        · exact h'
      exact List.Sublist.cons y (ih hjt)

theorem pair_sublist_argsortGo (s : List ℚ) (i j : ℕ)
    (heq : getScore s i = getScore s j) :
    ∀ L, List.Sublist [i, j] L → List.Sublist [i, j] (argsortGo s L) := by
  intro L
  induction L with
  | nil => intro h; exact absurd h (by simp)
  | cons x t ih =>
    intro h
    show List.Sublist [i, j] (insertIdx s x (argsortGo s t))
    cases h with
    | cons _ h' => exact (ih h').trans (sublist_insertIdx s x _)
    | cons₂ _ h' =>
      have hj : j ∈ argsortGo s t :=
        ((argsortGo_perm s t).mem_iff).mpr (List.singleton_sublist.mp h')
      exact pair_sublist_insertIdx s i j (le_of_eq heq) _ hj

theorem pair_sublist_range {i j : ℕ} (hij : i < j) :
    ∀ n, j < n → List.Sublist [i, j] (List.range n) := by
  intro n
  induction n with
  | zero => intro h; omega
  | succ m ih =>
    intro hjn
    rw [List.range_succ]
    rcases Nat.lt_or_ge j m with h | h
    · exact (ih h).trans (List.sublist_append_left _ _)
    · have hj : j = m := by omega
      subst hj
      have hi : List.Sublist [i] (List.range j) :=
        List.singleton_sublist.mpr (List.mem_range.mpr hij)
      exact List.Sublist.append hi (List.Sublist.refl [j])

theorem sublist_pair_get_lt {a b : ℕ} :
    ∀ (m : List ℕ) (p q : ℕ), m.Nodup → List.Sublist [a, b] m → a ≠ b →
      m.get? p = some a → m.get? q = some b → p < q := by
  intro m
  induction m with
  | nil =>
    intro p q _ hsub
    exact absurd hsub (by simp)
  | cons x t ih =>
    intro p q hnd hsub hab hp hq
    obtain ⟨hxt, hndt⟩ := List.nodup_cons.mp hnd
    cases hsub with
    | cons _ h' =>
      have hat : a ∈ t := h'.subset (by simp)
      have hbt : b ∈ t := h'.subset (by simp)
      cases p with
      | zero =>
        rw [List.get?_cons_zero] at hp
        have : x = a := Option.some_injective _ hp
        exact absurd (this ▸ hat) hxt
      | succ p' =>
        cases q with
        | zero =>
          rw [List.get?_cons_zero] at hq
          have : x = b := Option.some_injective _ hq
          exact absurd (this ▸ hbt) hxt
        | succ q' =>
          have := ih p' q' hndt h' hab
            (by simpa using hp) (by simpa using hq)
          omega
    | cons₂ _ h' =>
      cases p with
      | zero =>
        cases q with
        | zero =>
          rw [List.get?_cons_zero] at hq
          exact absurd (Option.some_injective _ hq) hab
        | succ q' => exact Nat.succ_pos q'
      | succ p' =>
        rw [List.get?_cons_succ] at hp
        exact absurd (List.get?_mem hp) hxt

theorem get?_take_some {α : Type} {l : List α} {k p : ℕ} {a : α}
    (h : (l.take k).get? p = some a) : l.get? p = some a := by
  have hp : p < k := by
    by_contra hpk
    have hlen : (l.take k).length ≤ p := by
      rw [List.length_take]
      omega
    rw [← List.get?_eq_none] at hlen
    rw [hlen] at h
    exact absurd h (by simp)
  rw [List.get?_eq_getElem?] at h ⊢
  exact (List.getElem?_take_of_lt hp).symm.trans h

theorem mem_hybrid_search_get {bm sem : List ℚ} {k : ℕ} {al : ℚ}
    {r : ℕ} {sc : ℚ} {c : ℕ}
    (h : (r, sc, c) ∈ hybrid_chunk_search bm sem k al) :
    ∃ p, ((argsort (fuseScores bm sem al)).reverse.take k).get? p = some c ∧
      r = p + 1 := by
  unfold hybrid_chunk_search at h
  obtain ⟨pr, hpr, heq⟩ := List.mem_map.mp h
  obtain ⟨p, idx⟩ := pr
  simp only [Prod.mk.injEq] at heq
  obtain ⟨h1, _, h3⟩ := heq
  subst h3
  refine ⟨p, ?_, h1.symm⟩
  have := List.mem_enum_iff_get?.mp hpr
  simpa using this

/-- Claim C3 (amended): within one retrieval call over at most 16 chunks —
the regime in which NumPy's argsort is its stable insertion sort, so the
embedding's tie order is the code's — for two chunks with equal fused
scores the chunk with the *higher* original index receives the better
(lower-numbered) rank whenever both appear in the returned list: stable
ascending argsort reversed puts the later index first among ties.  (The
hypothesis `hlen` scopes the statement to where the model is faithful; for
longer vectors the code's tie order is unspecified.) -/
theorem C3_tie_higher_index_first (bm sem : List ℚ) (top_k : ℕ) (alpha : ℚ)
    (i j ri rj : ℕ) (si sj : ℚ)
    (hlen : (fuseScores bm sem alpha).length ≤ 16)
    (hij : i < j) (hjn : j < (fuseScores bm sem alpha).length)
    (heq : getScore (fuseScores bm sem alpha) i =
      getScore (fuseScores bm sem alpha) j)
    (hi : (ri, si, i) ∈ hybrid_chunk_search bm sem top_k alpha)
    (hj : (rj, sj, j) ∈ hybrid_chunk_search bm sem top_k alpha) :
    rj < ri := by
  clear hlen
  obtain ⟨pi, hpi, hri⟩ := mem_hybrid_search_get hi
  obtain ⟨pj, hpj, hrj⟩ := mem_hybrid_search_get hj
  have hpi' : (argsort (fuseScores bm sem alpha)).reverse.get? pi = some i :=
    get?_take_some hpi
  have hpj' : (argsort (fuseScores bm sem alpha)).reverse.get? pj = some j :=
    get?_take_some hpj
  have hsub : List.Sublist [i, j] (argsort (fuseScores bm sem alpha)) :=
    pair_sublist_argsortGo _ i j heq _ (pair_sublist_range hij _ hjn)
  have hsubr : List.Sublist [j, i] ((argsort (fuseScores bm sem alpha)).reverse) := by
    have := hsub.reverse
    simpa using this
  have hnd : (argsort (fuseScores bm sem alpha)).reverse.Nodup := by
    rw [List.nodup_reverse]
    exact ((argsortGo_perm _ _).nodup_iff).mpr (List.nodup_range _)
  have hlt : pj < pi :=
    sublist_pair_get_lt _ pj pi hnd hsubr (by omega) hpj' hpi'
  omega

/-- Counterexample to C3 as stated: `bm25 = [5,5]`, `semantic = [3,3]`,
`alpha = 1/2` — both chunks get fused score 1, yet chunk 1 (the higher
index) receives rank 1 and chunk 0 receives rank 2, so the lower index gets
the *worse* rank.  (At this length NumPy's argsort is its stable insertion
sort, so this is the code's actual behavior, not a model artifact.) -/
theorem C3_counterexample :
    getScore (fuseScores [5, 5] [3, 3] (1 / 2)) 0 =
      getScore (fuseScores [5, 5] [3, 3] (1 / 2)) 1 ∧
    hybrid_chunk_search [5, 5] [3, 3] 5 (1 / 2) =
      [(1, 1, 1), (2, 1, 0)] := by
  constructor <;>
    norm_num [hybrid_chunk_search, fuseScores, fusePoint, normalizeVec,
      listMin, listMax, argsort, argsortGo, insertIdx, getScore,
      List.range_succ, List.enum, List.enumFrom]

/-- Witness for C3 (amended) on the same tied 2-chunk input (within the
at-most-16-chunk regime): chunk 1 is ranked 1, chunk 0 is ranked 2. -/
theorem C3_witness :
    ((1, (1 : ℚ), 1) ∈ hybrid_chunk_search [5, 5] [3, 3] 5 (1 / 2)) ∧
    ((2, (1 : ℚ), 0) ∈ hybrid_chunk_search [5, 5] [3, 3] 5 (1 / 2)) ∧
    1 < 2 := by
  refine ⟨?_, ?_, ?_⟩
  · norm_num [hybrid_chunk_search, fuseScores, fusePoint, normalizeVec,
      listMin, listMax, argsort, argsortGo, insertIdx, getScore,
      List.range_succ, List.enum, List.enumFrom]
  · norm_num [hybrid_chunk_search, fuseScores, fusePoint, normalizeVec,
      listMin, listMax, argsort, argsortGo, insertIdx, getScore,
      List.range_succ, List.enum, List.enumFrom]
  · exact C3_tie_higher_index_first [5, 5] [3, 3] 5 (1 / 2) 0 1 2 1 1 1
      (by norm_num [fuseScores, normalizeVec, listMin, listMax])
      (by norm_num)
      (by norm_num [fuseScores, normalizeVec, listMin, listMax])
      (by norm_num [fuseScores, fusePoint, normalizeVec, listMin, listMax,
        getScore])
      (by norm_num [hybrid_chunk_search, fuseScores, fusePoint, normalizeVec,
        listMin, listMax, argsort, argsortGo, insertIdx, getScore,
        List.range_succ, List.enum, List.enumFrom])
      (by norm_num [hybrid_chunk_search, fuseScores, fusePoint, normalizeVec,
        listMin, listMax, argsort, argsortGo, insertIdx, getScore,
        List.range_succ, List.enum, List.enumFrom])

/-! C2: the confidence gate of `document_detail` (views.py lines 184-207,
qa mode).  Python's `round` is banker's rounding (round half to even);
`int(round(x))` on an integral float is that integer. -/

/-- Python `round` on a rational: round half to even. -/
def bankersRound (q : ℚ) : ℤ :=
  let f := ⌊q⌋
  if q - f < 1 / 2 then f
  else if 1 / 2 < q - f then f + 1
  else if Even f then f else f + 1

/-- The fixed refusal shown when the top score is below the threshold. -/
def refusalMsg : String :=
  "질문과 관련된 내용을 문서에서 충분히 찾지 못했습니다.\n질문을 조금 더 구체적으로 바꾸거나, 다른 문서를 참고하는 것이 좋겠습니다."

/-- The message for an empty search result (no LLM call either). -/
def noResultsMsg : String := "질문과 관련된 문단을 문서에서 찾지 못했습니다."

/-- The qa branch of `document_detail`, as a pure function of the search
results `(score, text)` and the answer-generation collaborator `gen`.
Returns `(confidence, llm_answer, invoked)` where `invoked` records whether
`generate_answer_with_context` was called. -/
def qaBranch (gen : String → List String → String) (question : String)
    (results : List (ℚ × String)) : Option ℤ × String × Bool :=
  match results with
  | [] => (none, noResultsMsg, false)
  | r :: _ =>
    let conf := bankersRound (r.1 * 100)
    if r.1 < 35 / 100 then (some conf, refusalMsg, false)
    else (some conf, gen question (results.map Prod.snd), true)

/-- Claim C2: a top score `≥` the 0.35 threshold (equality included)
invokes the collaborator; a top score `<` the threshold returns the fixed
refusal without invoking it; the confidence indicator
`round(score * 100)` is exposed in both cases. -/
theorem C2_confidence_gate (gen : String → List String → String) (q : String)
    (s : ℚ) (t : String) (rs : List (ℚ × String)) :
    (35 / 100 ≤ s →
      qaBranch gen q ((s, t) :: rs) =
        (some (bankersRound (s * 100)),
          gen q (((s, t) :: rs).map Prod.snd), true)) ∧
    (s < 35 / 100 →
      qaBranch gen q ((s, t) :: rs) =
        (some (bankersRound (s * 100)), refusalMsg, false)) := by
  constructor
  · intro h
    simp only [qaBranch]
    rw [if_neg (not_lt.mpr h)]
  · intro h
    simp only [qaBranch]
    rw [if_pos h]

/-- A concrete collaborator stub for the witness. -/
def genStub : String → List String → String := fun _ _ => "answer"

/-- Witness for C2: a top score exactly at the threshold (0.35) invokes the
collaborator; a top score of 0.20 yields the refusal.  Confidences are
`round(0.35*100) = 35` and `round(0.20*100) = 20`. -/
theorem C2_witness :
    (qaBranch genStub "q" [(35 / 100, "c")] =
      (some (bankersRound ((35 : ℚ) / 100 * 100)),
        genStub "q" ([((35 : ℚ) / 100, "c")].map Prod.snd), true)) ∧
    (qaBranch genStub "q" [(1 / 5, "c")] =
      (some (bankersRound ((1 : ℚ) / 5 * 100)), refusalMsg, false)) ∧
    bankersRound ((35 : ℚ) / 100 * 100) = 35 ∧
    bankersRound ((1 : ℚ) / 5 * 100) = 20 := by
  refine ⟨(C2_confidence_gate genStub "q" (35 / 100) "c" []).1 (by norm_num),
    (C2_confidence_gate genStub "q" (1 / 5) "c" []).2 (by norm_num), ?_, ?_⟩
  · norm_num [bankersRound]
  · norm_num [bankersRound]

/-! C9: the answer-generation boundary (`llm_client.py`).  The `try` block
covers only the chat-completion call; `get_client()` runs *before* it, so a
missing `OPENAI_API_KEY` raises a `RuntimeError` that propagates to the
caller.  `Except.error` models a propagated Python exception. -/

structure OpenAIClient where
  api_key : String

/-- The `RuntimeError` message raised when no API key is configured. -/
def keyErrorMsg : String :=
  "OPENAI_API_KEY 환경 변수가 설정되어 있지 않습니다. .env 파일 또는 OS 환경변수에서 확인해주세요."

/-- `get_client` (llm_client.py lines 18-35): reuse the cached global
client, else construct one from the environment's API key, else raise. -/
def get_client (cached : Option OpenAIClient) (apiKey : Option String) :
    Except String OpenAIClient :=
  match cached with
  | some c => Except.ok c
  | none =>
    match apiKey with
    | none => Except.error keyErrorMsg
    | some k => Except.ok ⟨k⟩

/-- Outcome of the remote chat-completion call: a successful response body,
an `OpenAIError`, or any other exception. -/
inductive CallOutcome where
  | success (content : String)
  | openAIError (msg : String)
  | otherError (msg : String)

/-- `generate_answer_with_context` (llm_client.py lines 38-103).
`get_client` is called outside the `try`; the two `except` arms downgrade
call failures to descriptive strings. -/
def generate_answer_with_context (cached : Option OpenAIClient)
    (apiKey : Option String) (call : CallOutcome)
    (question : String) (context_chunks : List String) : Except String String :=
  match get_client cached apiKey with
  | Except.error e => Except.error e
  | Except.ok _ =>
    match call with
    | CallOutcome.success content => Except.ok content.trim
    | CallOutcome.openAIError m => Except.ok ("[LLM 호출 실패] " ++ m)
    | CallOutcome.otherError m => Except.ok ("[LLM 호출 중 알 수 없는 오류] " ++ m)

/-- `true` iff the boundary returned a string rather than propagating. -/
def returnsString : Except String String → Bool
  | Except.ok _ => true
  | Except.error _ => false

/-- Claim C9 (amended): whenever a client is available (already cached, or
an API key is configured), the boundary returns a descriptive string for
every call outcome and never propagates an exception; without either, the
`RuntimeError` from `get_client` propagates (see the counterexample). -/
theorem C9_graceful (cached : Option OpenAIClient) (apiKey : Option String)
    (call : CallOutcome) (q : String) (chunks : List String)
    (h : cached.isSome = true ∨ apiKey.isSome = true) :
    returnsString (generate_answer_with_context cached apiKey call q chunks) =
      true := by
  unfold generate_answer_with_context get_client
  cases cached with
  | some c => cases call <;> rfl
  | none =>
    cases apiKey with
    | some k => cases call <;> rfl
    | none =>
      rcases h with h | h <;> simp at h

/-- Witness for C9: with an API key configured and the remote call failing
with an `OpenAIError`, the boundary still returns a string. -/
theorem C9_witness :
    returnsString (generate_answer_with_context none (some "sk-test")
      (CallOutcome.openAIError "RateLimitError: insufficient quota")
      "q" []) = true :=
  C9_graceful none (some "sk-test")
    (CallOutcome.openAIError "RateLimitError: insufficient quota") "q" []
    (Or.inr rfl)

/-- Counterexample to C9 as stated: with no cached client and no API key,
even a call that would have succeeded propagates the `RuntimeError` from
`get_client` to the caller instead of returning a string. -/
theorem C9_counterexample :
    generate_answer_with_context none none (CallOutcome.success "fine")
      "q" ["chunk"] = Except.error keyErrorMsg := rfl

end RagPortal
